import Mathlib

/-!
Verification of the browser session lifecycle and pooling layer of the
hermione repository.  The `BrowserAgent` class is embedded from
`src/lib/browser-agent.js`; the URL resolver, the session `url` decorator,
the `init` orchestration and the browser pool are present in the repository
only through their tests, so they are modelled from the specification.
-/

namespace Hermione

/-! ## UrlResolver -/

/-- Drop every trailing slash character of a character list. -/
def dropTrailingSlashes (l : List Char) : List Char :=
  (l.reverse.dropWhile (fun c => c = '/')).reverse

/-- Modelled from the spec: split a URL at the first `://` occurrence,
returning the scheme part and the remainder.  The scheme/authority split of
the base URL is needed by the absolute-path branch of `UrlResolver`, whose
implementation (`lib/browser/existing-browser.js`) is not part of the
source slice. -/
def splitScheme : List Char → Option (List Char × List Char)
  | [] => none
  | c :: rest =>
    if c = ':' ∧ rest.head? = some '/' ∧ rest.tail.head? = some '/' then
      some ([], rest.tail.tail)
    else (splitScheme rest).map (fun pr => (c :: pr.1, pr.2))

/-- A character that may appear in the authority (host/port) component:
anything up to the first `/` (path start) or `?` (query start). -/
def authChar (c : Char) : Bool :=
  !(c = '/') && !(c = '?')

/-- Modelled from the spec: the origin (scheme, host and port) of a base
URL, i.e. everything before its path component. -/
def origin (b : List Char) : List Char :=
  match splitScheme b with
  | some (sch, rest) => sch ++ [':', '/', '/'] ++ rest.takeWhile authChar
  | none => b.takeWhile authChar

/-- Modelled from the spec: `UrlResolver.resolve` on character lists.
If the requested URL starts with `/` it replaces the path component of the
base, preserving scheme/host/port; if it starts with `?` it is appended as
the query string to the base's path; otherwise base and requested URL are
concatenated with exactly one `/` separator. -/
def resolveL (b p : List Char) : List Char :=
  if p.head? = some '/' then origin b ++ p
  else if p.head? = some '?' then b.takeWhile (fun c => !(c = '?')) ++ p
  else dropTrailingSlashes b ++ '/' :: p

/-- Modelled from the spec: `UrlResolver.resolve`.  With no base URL the
requested URL is returned unchanged. -/
def resolve : Option String → String → String
  | none, p => p
  | some b, p => String.mk (resolveL b.data p.data)

example : resolve (some "http://x.org/root") "/some/url" = "http://x.org/some/url" := by decide
example : resolve (some "http://x.org") "/some/url/" = "http://x.org/some/url/" := by decide
example : resolve (some "http://x.org/") "/some/url" = "http://x.org/some/url" := by decide
example : resolve (some "http://x.org/root") "?q=1" = "http://x.org/root?q=1" := by decide
example : resolve (some "http://some.domain.org") "some/url" = "http://some.domain.org/some/url" := by decide
example : resolve none "foo/bar" = "foo/bar" := by decide

/-! ## BrowserSession: meta store and the `url` decorator -/

/-- Modelled from the spec: a browser session's observable state — the
configured base URL and the per-session meta key/value store (a JS object,
modelled as a partial map).  The implementation
(`lib/browser/existing-browser.js`) is present only through its tests. -/
structure Browser where
  baseUrl : Option String
  meta : String → Option String

/-- Read a meta entry (the `getMeta` command). -/
def Browser.getMeta (b : Browser) (k : String) : Option String :=
  b.meta k

/-- Write a meta entry (the `setMeta` command). -/
def Browser.setMeta (b : Browser) (k v : String) : Browser :=
  { b with meta := fun k2 => if k2 = k then some v else b.meta k2 }

/-- Modelled from the spec: the decorated `url` command.  With no argument
(or an empty one, a falsy value) it is a read and leaves the session state
untouched; with a non-empty argument it resolves the argument against the
base URL and records the result under the `url` meta key. -/
def Browser.url (b : Browser) (uri : Option String) : Browser :=
  match uri with
  | none => b
  | some u => if u = "" then b else b.setMeta "url" (resolve b.baseUrl u)

/-! ## `init` orchestration -/

/-- Observable events of an `init` run, in the order they are issued. -/
inductive InitEvent
  | attach
  | userHook
  | calibrate
deriving DecidableEq, Repr

/-- Modelled from the spec: the configuration and environment of one
`init` run — whether the `calibrate` option is on, whether a
`prepareBrowser` user hook is configured and whether it throws, whether
the camera is already calibrated, and whether the external calibrator
fails. -/
structure InitConfig where
  calibrateOpt : Bool
  hasHook : Bool
  hookFails : Bool
  isCalibrated : Bool
  calibratorFails : Bool

/-- The outcome of an `init` run: the event trace, whether `init`
resolved, whether a warning was logged, whether the session is ready, and
the final calibrated flag. -/
structure InitResult where
  trace : List InitEvent
  success : Bool
  warned : Bool
  ready : Bool
  calibrated : Bool
deriving DecidableEq, Repr

/-- Modelled from the spec: the attach step, always first. -/
def attachStep (cfg : InitConfig) : InitResult :=
  { trace := [InitEvent.attach], success := true, warned := false,
    ready := false, calibrated := cfg.isCalibrated }

/-- Modelled from the spec: `runUserHook` — the caller-supplied hook is
invoked after attach; any failure is caught and logged as a warning and
never propagates. -/
def runUserHook (cfg : InitConfig) (r : InitResult) : InitResult :=
  if cfg.hasHook then
    if cfg.hookFails then
      { r with trace := r.trace ++ [InitEvent.userHook], warned := true }
    else
      { r with trace := r.trace ++ [InitEvent.userHook] }
  else r

/-- Modelled from the spec: the calibration step — the calibrator is
invoked only when the `calibrate` option is on and the camera is not
already calibrated; a calibrator failure is fatal. -/
def calibrateStep (cfg : InitConfig) (r : InitResult) : InitResult :=
  if cfg.calibrateOpt && !cfg.isCalibrated then
    if cfg.calibratorFails then
      { r with trace := r.trace ++ [InitEvent.calibrate],
               success := false, ready := false }
    else
      { r with trace := r.trace ++ [InitEvent.calibrate],
               calibrated := true, ready := true }
  else { r with ready := true }

/-- Modelled from the spec: the `init` orchestration — attach, then the
best-effort user hook, then (conditionally) calibration. -/
def init (cfg : InitConfig) : InitResult :=
  calibrateStep cfg (runUserHook cfg (attachStep cfg))

/-! ## BrowserPool -/

/-- A checked-out session handle: the logical browser id it was requested
for and a reference identifying the underlying session instance. -/
abbrev PoolEntry := String × Nat

/-- Modelled from the spec: the browser pool — a registry of session
instances partitioned into an idle set and an in-use set, plus a counter
supplying references for freshly created sessions.  The pool implementation
is not part of the source slice; only `BrowserAgent`, its caller, is. -/
structure BrowserPool where
  idle : List PoolEntry
  inUse : List PoolEntry
  nextRef : Nat

/-- The pool a test run starts from: no sessions yet. -/
def emptyPool : BrowserPool := ⟨[], [], 0⟩

/-- Remove the first idle entry for the given browser id, returning its
session reference and the remaining idle list. -/
def takeIdle (bid : String) : List PoolEntry → Option (Nat × List PoolEntry)
  | [] => none
  | e :: rest =>
    if e.1 = bid then some (e.2, rest)
    else
      match takeIdle bid rest with
      | some (r, rest2) => some (r, e :: rest2)
      | none => none

/-- Remove the first occurrence of an entry from a list, or fail if it is
not present. -/
def removeFirst (s : PoolEntry) : List PoolEntry → Option (List PoolEntry)
  | [] => none
  | e :: rest =>
    if e = s then some rest
    else
      match removeFirst s rest with
      | some rest2 => some (e :: rest2)
      | none => none

/-- Modelled from the spec: `BrowserPool.getBrowser` — reuse an idle
session for the browser id when one exists, otherwise create a fresh one;
either way the returned session is marked in-use. -/
def BrowserPool.getBrowser (p : BrowserPool) (bid : String) :
    BrowserPool × PoolEntry :=
  match takeIdle bid p.idle with
  | some (r, idle2) =>
    ({ p with idle := idle2, inUse := (bid, r) :: p.inUse }, (bid, r))
  | none =>
    ({ p with inUse := (bid, p.nextRef) :: p.inUse, nextRef := p.nextRef + 1 },
     (bid, p.nextRef))

/-- Modelled from the spec: `BrowserPool.freeBrowser` — return a
checked-out session to the idle set; freeing a session that is not
currently checked out is an error (`none`). -/
def BrowserPool.freeBrowser (p : BrowserPool) (s : PoolEntry) :
    Option BrowserPool :=
  match removeFirst s p.inUse with
  | some inUse2 => some { p with inUse := inUse2, idle := s :: p.idle }
  | none => none

/-- One pool operation of an interleaving: some caller acquires a session
for a browser id, or some caller releases a session handle. -/
inductive PoolOp
  | get (bid : String)
  | free (s : PoolEntry)

/-- Apply one operation to the pool.  A rejected release (freeing a
session that is not checked out) surfaces as an error to that caller and
leaves the registry unchanged. -/
def poolStep (p : BrowserPool) : PoolOp → BrowserPool
  | PoolOp.get bid => (p.getBrowser bid).1
  | PoolOp.free s =>
    match p.freeBrowser s with
    | some p2 => p2
    | none => p

/-- The pool reached from the empty pool by an arbitrary interleaving of
`getBrowser` and `freeBrowser` calls. -/
def runPool (ops : List PoolOp) : BrowserPool :=
  ops.foldl poolStep emptyPool

/-- The session references the pool currently manages, idle and in-use
together. -/
def poolRefs (p : BrowserPool) : List Nat :=
  (p.idle ++ p.inUse).map Prod.snd

/-- Pool well-formedness: no session instance appears twice in the
registry, and every managed reference is below the freshness counter. -/
def PoolWF (p : BrowserPool) : Prop :=
  (poolRefs p).Nodup ∧ ∀ r ∈ poolRefs p, r < p.nextRef

/-! ## BrowserAgent (from `src/lib/browser-agent.js`) -/

/-- The heap of pool objects: `BrowserAgent` holds a shared reference to a
pool, so pool state lives behind a reference. -/
def PoolHeap := Nat → BrowserPool

/-- `BrowserAgent` from `src/lib/browser-agent.js`: the constructor stores
the browser id and the pool reference, nothing else. -/
structure BrowserAgent where
  browserId : String
  poolRef : Nat
deriving DecidableEq

/-- `BrowserAgent.prototype.getBrowser`: forwards to
`this._pool.getBrowser(this.browserId)`.  Returns the (unchanged) agent,
the updated heap and the session the pool handed out. -/
def BrowserAgent.getBrowser (a : BrowserAgent) (h : PoolHeap) :
    BrowserAgent × PoolHeap × PoolEntry :=
  let res := (h a.poolRef).getBrowser a.browserId
  (a, fun n => if n = a.poolRef then res.1 else h n, res.2)

/-- `BrowserAgent.prototype.freeBrowser`: forwards to
`this._pool.freeBrowser(browser)`.  Returns the (unchanged) agent, the
updated heap and whether the release succeeded. -/
def BrowserAgent.freeBrowser (a : BrowserAgent) (h : PoolHeap)
    (s : PoolEntry) : BrowserAgent × PoolHeap × Bool :=
  match (h a.poolRef).freeBrowser s with
  | some p2 => (a, fun n => if n = a.poolRef then p2 else h n, true)
  | none => (a, h, false)

/-! ## Helper lemmas -/

/-- The session handle returned by the pool always carries the requested
browser id. -/
theorem getBrowser_entry_id (p : BrowserPool) (bid : String) :
    ((p.getBrowser bid).2).1 = bid := by
  unfold BrowserPool.getBrowser
  cases hE : takeIdle bid p.idle with
  | none => rfl
  | some pr => rfl

/-! ## Claims -/

/-- C2: a BrowserAgent constructed with a browser id and a pool reference
forwards `getBrowser` to `pool.getBrowser(browserId)` and `freeBrowser` to
`pool.freeBrowser(session)`: the session it hands back, the pool state it
leaves behind and the release outcome are exactly those of the pool call;
the agent adds no behaviour of its own. -/
theorem claim_agent_pure_forwarding (bid : String) (pr : Nat) (h : PoolHeap)
    (s : PoolEntry) :
    ((BrowserAgent.mk bid pr).getBrowser h).2.2 = ((h pr).getBrowser bid).2
    ∧ ((BrowserAgent.mk bid pr).getBrowser h).2.1 pr = ((h pr).getBrowser bid).1
    ∧ ((BrowserAgent.mk bid pr).freeBrowser h s).2.2 = ((h pr).freeBrowser s).isSome
    ∧ ((BrowserAgent.mk bid pr).freeBrowser h s).2.1 pr
        = ((h pr).freeBrowser s).getD (h pr) := by
  refine ⟨rfl, by simp [BrowserAgent.getBrowser], ?_, ?_⟩ <;>
  · unfold BrowserAgent.freeBrowser
    cases hE : (h pr).freeBrowser s <;> simp [hE]

/-- C10: a BrowserAgent is never mutated after construction — both
`getBrowser` and `freeBrowser` leave its browser id and its pool reference
untouched, and every `getBrowser` call requests exactly the agent's own
browser id. -/
theorem claim_agent_state_immutable (a : BrowserAgent) (h : PoolHeap)
    (s : PoolEntry) :
    (a.getBrowser h).1 = a
    ∧ (a.freeBrowser h s).1 = a
    ∧ (a.getBrowser h).2.2.1 = a.browserId
    ∧ (a.getBrowser h).1.browserId = a.browserId
    ∧ (a.getBrowser h).1.poolRef = a.poolRef
    ∧ (a.freeBrowser h s).1.browserId = a.browserId
    ∧ (a.freeBrowser h s).1.poolRef = a.poolRef := by
  have hfree : (a.freeBrowser h s).1 = a := by
    unfold BrowserAgent.freeBrowser
    cases hE : (h a.poolRef).freeBrowser s <;> simp
  refine ⟨rfl, hfree, ?_, rfl, rfl, by rw [hfree], by rw [hfree]⟩
  exact getBrowser_entry_id (h a.poolRef) a.browserId

/-- C6: the decorated navigation command called with no argument is a pure
read that mutates nothing; called with any non-empty argument it sets the
`url` meta entry to the argument resolved against the session's base URL,
leaves every other meta entry unchanged, and after successive navigations
the `url` entry holds the last resolved URL. -/
theorem claim_navigate_meta_url (b : Browser) (u1 u2 k : String)
    (h1 : u1 ≠ "") (h2 : u2 ≠ "") (hk : k ≠ "url") :
    b.url none = b
    ∧ (b.url (some u1)).getMeta "url" = some (resolve b.baseUrl u1)
    ∧ (b.url (some u1)).getMeta k = b.getMeta k
    ∧ ((b.url (some u1)).url (some u2)).getMeta "url"
        = some (resolve b.baseUrl u2) := by
  refine ⟨rfl, ?_, ?_, ?_⟩ <;>
    simp [Browser.url, Browser.setMeta, Browser.getMeta, h1, h2, hk]

/-- C6 witness: a concrete session, two non-empty navigations and an
unrelated meta key. -/
theorem claim_navigate_meta_url_witness :
    ("a" ≠ "") ∧ ("b" ≠ "") ∧ ("z" ≠ "url")
    ∧ (let b0 : Browser := ⟨some "http://x.org", fun _ => none⟩
       b0.url none = b0
       ∧ (b0.url (some "a")).getMeta "url" = some (resolve b0.baseUrl "a")
       ∧ (b0.url (some "a")).getMeta "z" = b0.getMeta "z"
       ∧ ((b0.url (some "a")).url (some "b")).getMeta "url"
           = some (resolve b0.baseUrl "b")) :=
  ⟨by decide, by decide, by decide,
   claim_navigate_meta_url ⟨some "http://x.org", fun _ => none⟩ "a" "b" "z"
     (by decide) (by decide) (by decide)⟩

/-- C7: in every `init` run the events occur in the strict order
attach, then user hook, then calibration — each at most once, attach always
first, so calibration never precedes attach and the hook (when present)
completes before calibration is attempted. -/
theorem claim_init_ordering (cfg : InitConfig) :
    List.Sublist (init cfg).trace
      [InitEvent.attach, InitEvent.userHook, InitEvent.calibrate]
    ∧ (init cfg).trace.head? = some InitEvent.attach := by
  obtain ⟨c1, c2, c3, c4, c5⟩ := cfg
  cases c1 <;> cases c2 <;> cases c3 <;> cases c4 <;> cases c5 <;> decide

/-- C8: `init` resolves successfully exactly when calibration does not run
and fail — in particular a user-hook failure never affects the outcome, it
is merely recorded as a warning; a calibrator failure always fails `init`
and the session is then not marked ready. -/
theorem claim_init_error_handling (cfg : InitConfig) :
    (init cfg).success
      = !(cfg.calibrateOpt && !cfg.isCalibrated && cfg.calibratorFails)
    ∧ (init cfg).warned = (cfg.hasHook && cfg.hookFails)
    ∧ (init cfg).ready = (init cfg).success := by
  obtain ⟨c1, c2, c3, c4, c5⟩ := cfg
  cases c1 <;> cases c2 <;> cases c3 <;> cases c4 <;> cases c5 <;> decide

/-- C9: the external calibrator is invoked during `init` if and only if the
`calibrate` option is on and the session is not already calibrated, and it
is invoked at most once per run. -/
theorem claim_calibrator_invocation (cfg : InitConfig) :
    (InitEvent.calibrate ∈ (init cfg).trace
      ↔ cfg.calibrateOpt = true ∧ cfg.isCalibrated = false)
    ∧ (init cfg).trace.count InitEvent.calibrate ≤ 1 := by
  obtain ⟨c1, c2, c3, c4, c5⟩ := cfg
  cases c1 <;> cases c2 <;> cases c3 <;> cases c4 <;> cases c5 <;> decide

/-- Appending past a block of characters all satisfying the predicate. -/
theorem takeWhile_append_all (q : Char → Bool) (l1 l2 : List Char)
    (hall : ∀ c ∈ l1, q c = true) :
    (l1 ++ l2).takeWhile q = l1 ++ l2.takeWhile q := by
  induction l1 with
  | nil => rfl
  | cons c t ih =>
    have hc := hall c (List.mem_cons_self c t)
    simp [List.takeWhile_cons, hc,
      ih (fun d hd => hall d (List.mem_cons_of_mem c hd))]

/-- C5: a query-only requested URL is appended to the base, whose existing
path is preserved unchanged — everything before the query separator in the
result is exactly the base URL. -/
theorem claim_query_only (B P : String)
    (hq : P.data.head? = some '?') (hB : '?' ∉ B.data) :
    resolve (some B) P = B ++ P
    ∧ (resolve (some B) P).data.takeWhile (fun c => !(c = '?')) = B.data := by
  have hall : ∀ c ∈ B.data, (!(c = '?') : Bool) = true := by
    intro c hc
    by_cases h : c = '?'
    · exact absurd (h ▸ hc) hB
    · simp [h]
  have hq' : P.data.head? ≠ some '/' := by simp [hq]
  have htake : B.data.takeWhile (fun c => !(c = '?')) = B.data :=
    List.takeWhile_eq_self_iff.mpr hall
  have hres : resolve (some B) P = String.mk (B.data ++ P.data) := by
    show String.mk (resolveL B.data P.data) = _
    unfold resolveL
    rw [if_neg hq', if_pos hq, htake]
  have hPtake : P.data.takeWhile (fun c => !(c = '?')) = [] := by
    cases hP : P.data with
    | nil => rfl
    | cons c t =>
      rw [hP] at hq
      simp only [List.head?_cons, Option.some.injEq] at hq
      rw [List.takeWhile_cons_of_neg (by simp [hq])]
  constructor
  · rw [hres]
    obtain ⟨lb⟩ := B
    obtain ⟨lp⟩ := P
    rfl
  · rw [hres]
    show (B.data ++ P.data).takeWhile (fun c => !(c = '?')) = B.data
    rw [takeWhile_append_all _ _ _ hall, hPtake, List.append_nil]

/-- C5 witness: the spec's own example input. -/
theorem claim_query_only_witness :
    ("?q=1" : String).data.head? = some '?'
    ∧ '?' ∉ ("http://x.org/root" : String).data
    ∧ (resolve (some "http://x.org/root") "?q=1" = "http://x.org/root" ++ "?q=1"
       ∧ (resolve (some "http://x.org/root") "?q=1").data.takeWhile
           (fun c => !(c = '?')) = ("http://x.org/root" : String).data) :=
  ⟨by decide, by decide,
   claim_query_only "http://x.org/root" "?q=1" (by decide) (by decide)⟩

/-- The trailing-slash normalizer is Mathlib's `rdropWhile` at the slash
predicate. -/
theorem dropTrailingSlashes_eq (l : List Char) :
    dropTrailingSlashes l = l.rdropWhile (fun c => c = '/') := rfl

/-- A list splits into its slash-normalized part and its trailing run. -/
theorem rdropWhile_append_rtakeWhile (q : Char → Bool) (l : List Char) :
    l.rdropWhile q ++ l.rtakeWhile q = l := by
  rw [List.rdropWhile, List.rtakeWhile, ← List.reverse_append,
    List.takeWhile_append_dropWhile, List.reverse_reverse]

/-- The slash-normalized part of a list never ends in a slash. -/
theorem dropTrailingSlashes_getLast (l : List Char) :
    (dropTrailingSlashes l).getLast? ≠ some '/' := by
  rw [dropTrailingSlashes_eq]
  by_cases hnn : l.rdropWhile (fun c => c = '/') = []
  · rw [hnn]; simp
  · have hlast := List.rdropWhile_last_not (fun c => c = '/') l hnn
    rw [List.getLast?_eq_getLast _ hnn]
    simp only [decide_eq_true_eq] at hlast
    simp [hlast]

/-- C3: for a relative requested path (no leading slash, no leading
question mark) the result is the base and the path joined by exactly one
slash: the base loses precisely its trailing run of slashes — recoverable
as such — the joined-on base part never ends in a slash, and resolving
from the already-normalized base yields the same result (idempotence of
re-normalization). -/
theorem claim_relative_join (B P : String)
    (h1 : P.data.head? ≠ some '/') (h2 : P.data.head? ≠ some '?') :
    resolve (some B) P = String.mk (dropTrailingSlashes B.data ++ '/' :: P.data)
    ∧ (∃ k, B.data = dropTrailingSlashes B.data ++ List.replicate k '/')
    ∧ (dropTrailingSlashes B.data).getLast? ≠ some '/'
    ∧ resolve (some (String.mk (dropTrailingSlashes B.data))) P
        = resolve (some B) P := by
  have hres : ∀ l : List Char, resolveL l P.data
      = dropTrailingSlashes l ++ '/' :: P.data := by
    intro l
    unfold resolveL
    rw [if_neg h1, if_neg h2]
  refine ⟨?_, ?_, dropTrailingSlashes_getLast B.data, ?_⟩
  · show String.mk (resolveL B.data P.data) = _
    rw [hres]
  · refine ⟨(B.data.rtakeWhile (fun c => c = '/')).length, ?_⟩
    have hrep : B.data.rtakeWhile (fun c => c = '/')
        = List.replicate (B.data.rtakeWhile (fun c => c = '/')).length '/' := by
      rw [List.eq_replicate_iff]
      refine ⟨rfl, fun b hb => ?_⟩
      have := List.mem_rtakeWhile_imp hb
      simpa using this
    rw [dropTrailingSlashes_eq, ← hrep, rdropWhile_append_rtakeWhile]
  · show String.mk (resolveL (dropTrailingSlashes B.data) P.data)
        = String.mk (resolveL B.data P.data)
    rw [hres, hres]
    simp only [dropTrailingSlashes_eq, List.rdropWhile_idempotent]

/-- C3 witness: a base with a trailing slash and a slash-free relative
path. -/
theorem claim_relative_join_witness :
    ("some/url" : String).data.head? ≠ some '/'
    ∧ ("some/url" : String).data.head? ≠ some '?'
    ∧ (resolve (some "http://x.org/") "some/url"
         = String.mk (dropTrailingSlashes ("http://x.org/" : String).data
             ++ '/' :: ("some/url" : String).data)
       ∧ (∃ k, ("http://x.org/" : String).data
           = dropTrailingSlashes ("http://x.org/" : String).data
             ++ List.replicate k '/')
       ∧ (dropTrailingSlashes ("http://x.org/" : String).data).getLast?
           ≠ some '/'
       ∧ resolve (some (String.mk
             (dropTrailingSlashes ("http://x.org/" : String).data))) "some/url"
           = resolve (some "http://x.org/") "some/url") :=
  ⟨by decide, by decide,
   claim_relative_join "http://x.org/" "some/url" (by decide) (by decide)⟩

/-- Splitting a URL built from a colon-free scheme and the `://` separator
recovers exactly the scheme and the remainder. -/
theorem splitScheme_append (s r : List Char) (hs : ':' ∉ s) :
    splitScheme (s ++ ':' :: '/' :: '/' :: r) = some (s, r) := by
  induction s with
  | nil => simp [splitScheme]
  | cons c s2 ih =>
    have hc : ¬(c = ':') := fun h => hs (by simp [h])
    have hs2 : ':' ∉ s2 := fun h => hs (List.mem_cons_of_mem c h)
    show splitScheme (c :: (s2 ++ ':' :: '/' :: '/' :: r)) = _
    unfold splitScheme
    rw [if_neg (fun h => hc h.1), ih hs2]
    rfl

/-- A path-or-query tail contributes nothing to the authority component. -/
theorem takeWhile_auth_tail (tail : List Char)
    (ht : tail = [] ∨ tail.head? = some '/' ∨ tail.head? = some '?') :
    tail.takeWhile authChar = [] := by
  cases tail with
  | nil => rfl
  | cons c t =>
    rcases ht with h | h | h
    · exact absurd h (by simp)
    · simp only [List.head?_cons, Option.some.injEq] at h
      rw [h]
      exact List.takeWhile_cons_of_neg (by decide)
    · simp only [List.head?_cons, Option.some.injEq] at h
      rw [h]
      exact List.takeWhile_cons_of_neg (by decide)

/-- The origin of a well-formed base URL is its scheme, separator and
authority, whatever its path component. -/
theorem origin_shape (scheme host tail : List Char) (hs : ':' ∉ scheme)
    (hh : ∀ c ∈ host, authChar c = true)
    (ht : tail = [] ∨ tail.head? = some '/' ∨ tail.head? = some '?') :
    origin (scheme ++ ':' :: '/' :: '/' :: (host ++ tail))
      = scheme ++ ':' :: '/' :: '/' :: host := by
  unfold origin
  rw [splitScheme_append scheme (host ++ tail) hs]
  show scheme ++ [':', '/', '/'] ++ (host ++ tail).takeWhile authChar = _
  rw [takeWhile_append_all authChar host tail hh, takeWhile_auth_tail tail ht,
    List.append_nil, List.append_assoc]
  rfl

/-- C4: for a requested path starting with a slash the result keeps the
base's scheme, host and port, replaces the base's path component with the
requested path (so a slash doubled at the join — a base path that is just
a trailing slash — collapses), and the requested path's own last
character, in particular an explicit trailing slash, survives into the
result. -/
theorem claim_absolute_path (scheme host tail P : List Char)
    (hs : ':' ∉ scheme)
    (hh : ∀ c ∈ host, authChar c = true)
    (ht : tail = [] ∨ tail.head? = some '/' ∨ tail.head? = some '?')
    (hp : P.head? = some '/') :
    resolve (some (String.mk (scheme ++ ':' :: '/' :: '/' :: (host ++ tail))))
        (String.mk P)
      = String.mk (scheme ++ ':' :: '/' :: '/' :: (host ++ P))
    ∧ (resolve (some (String.mk (scheme ++ ':' :: '/' :: '/' :: (host ++ tail))))
        (String.mk P)).data.getLast? = P.getLast?
    ∧ resolve (some (String.mk (scheme ++ ':' :: '/' :: '/' :: (host ++ ['/']))))
          (String.mk P)
        = resolve (some (String.mk (scheme ++ ':' :: '/' :: '/' :: host)))
          (String.mk P) := by
  have hPne : P ≠ [] := by
    intro h
    rw [h] at hp
    exact Option.noConfusion hp
  have hkey : ∀ t2, (t2 = [] ∨ t2.head? = some '/' ∨ t2.head? = some '?') →
      resolveL (scheme ++ ':' :: '/' :: '/' :: (host ++ t2)) P
        = scheme ++ ':' :: '/' :: '/' :: (host ++ P) := by
    intro t2 ht2
    unfold resolveL
    rw [if_pos hp, origin_shape scheme host t2 hs hh ht2, List.append_assoc]
    rfl
  have h1 : resolve (some (String.mk
      (scheme ++ ':' :: '/' :: '/' :: (host ++ tail)))) (String.mk P)
      = String.mk (scheme ++ ':' :: '/' :: '/' :: (host ++ P)) := by
    show String.mk (resolveL (scheme ++ ':' :: '/' :: '/' :: (host ++ tail)) P) = _
    rw [hkey tail ht]
  refine ⟨h1, ?_, ?_⟩
  · rw [h1]
    show (scheme ++ ':' :: '/' :: '/' :: (host ++ P)).getLast? = P.getLast?
    have hsplit : scheme ++ ':' :: '/' :: '/' :: (host ++ P)
        = (scheme ++ ':' :: '/' :: '/' :: host) ++ P := by
      simp [List.append_assoc]
    rw [hsplit, List.getLast?_append_of_ne_nil _ hPne]
  · show String.mk (resolveL (scheme ++ ':' :: '/' :: '/' :: (host ++ ['/'])) P)
        = String.mk (resolveL (scheme ++ ':' :: '/' :: '/' :: host) P)
    have hnil : host = host ++ ([] : List Char) := by simp
    rw [hkey ['/'] (Or.inr (Or.inl rfl))]
    conv_rhs => rw [hnil]
    rw [hkey [] (Or.inl rfl)]

/-- C4 witness: the spec's example — a base with path `/root` and a
requested path with an explicit trailing slash. -/
theorem claim_absolute_path_witness :
    ':' ∉ ("http" : String).data
    ∧ (∀ c ∈ ("x.org" : String).data, authChar c = true)
    ∧ (("/root" : String).data = [] ∨ ("/root" : String).data.head? = some '/'
        ∨ ("/root" : String).data.head? = some '?')
    ∧ ("/some/url/" : String).data.head? = some '/'
    ∧ (resolve (some (String.mk (("http" : String).data ++ ':' :: '/' :: '/'
          :: (("x.org" : String).data ++ ("/root" : String).data))))
          (String.mk ("/some/url/" : String).data)
        = String.mk (("http" : String).data ++ ':' :: '/' :: '/'
            :: (("x.org" : String).data ++ ("/some/url/" : String).data))
      ∧ (resolve (some (String.mk (("http" : String).data ++ ':' :: '/' :: '/'
            :: (("x.org" : String).data ++ ("/root" : String).data))))
            (String.mk ("/some/url/" : String).data)).data.getLast?
          = ("/some/url/" : String).data.getLast?
      ∧ resolve (some (String.mk (("http" : String).data ++ ':' :: '/' :: '/'
            :: (("x.org" : String).data ++ ['/']))))
            (String.mk ("/some/url/" : String).data)
          = resolve (some (String.mk (("http" : String).data ++ ':' :: '/' :: '/'
            :: ("x.org" : String).data)))
            (String.mk ("/some/url/" : String).data)) :=
  ⟨by decide, by decide, by decide, by decide,
   claim_absolute_path ("http" : String).data ("x.org" : String).data
     ("/root" : String).data ("/some/url/" : String).data
     (by decide) (by decide) (by decide) (by decide)⟩

/-- Removing an idle entry is a permutation: the list splits into the
removed session and the remainder. -/
theorem takeIdle_perm (bid : String) :
    ∀ (l : List PoolEntry) (r : Nat) (l2 : List PoolEntry),
      takeIdle bid l = some (r, l2) → List.Perm l ((bid, r) :: l2) := by
  intro l
  induction l with
  | nil => intro r l2 h; exact absurd h (by simp [takeIdle])
  | cons e rest ih =>
    intro r l2 h
    unfold takeIdle at h
    by_cases he : e.1 = bid
    · rw [if_pos he] at h
      simp only [Option.some.injEq, Prod.mk.injEq] at h
      obtain ⟨hr, hl2⟩ := h
      subst hr; subst hl2
      have heq : e = (bid, e.2) := by rw [← he]
      exact heq ▸ List.Perm.refl (e :: rest)
    · rw [if_neg he] at h
      cases hrec : takeIdle bid rest with
      | none => rw [hrec] at h; exact absurd h (by simp)
      | some pr =>
        obtain ⟨r0, rest2⟩ := pr
        rw [hrec] at h
        simp only [Option.some.injEq, Prod.mk.injEq] at h
        obtain ⟨hr, hl2⟩ := h
        subst hr; subst hl2
        exact (List.Perm.cons e (ih r0 rest2 hrec)).trans
          (List.Perm.swap (bid, r0) e rest2)

/-- Removing a checked-out entry is a permutation: the list splits into
the released session and the remainder. -/
theorem removeFirst_perm (s : PoolEntry) :
    ∀ (l l2 : List PoolEntry),
      removeFirst s l = some l2 → List.Perm l (s :: l2) := by
  intro l
  induction l with
  | nil => intro l2 h; exact absurd h (by simp [removeFirst])
  | cons e rest ih =>
    intro l2 h
    unfold removeFirst at h
    by_cases he : e = s
    · rw [if_pos he] at h
      simp only [Option.some.injEq] at h
      subst h; subst he
      exact List.Perm.refl _
    · rw [if_neg he] at h
      cases hrec : removeFirst s rest with
      | none => rw [hrec] at h; exact absurd h (by simp)
      | some rest2 =>
        rw [hrec] at h
        simp only [Option.some.injEq] at h
        subst h
        exact (List.Perm.cons e (ih rest2 hrec)).trans
          (List.Perm.swap s e rest2)

/-- Well-formedness transfers along a permutation of the registry. -/
theorem poolWF_perm_aux {l1 l2 : List PoolEntry} {n : Nat}
    (h : List.Perm l1 l2)
    (hwf : (l2.map Prod.snd).Nodup ∧ ∀ r ∈ l2.map Prod.snd, r < n) :
    (l1.map Prod.snd).Nodup ∧ ∀ r ∈ l1.map Prod.snd, r < n := by
  have hm : List.Perm (l1.map Prod.snd) (l2.map Prod.snd) := h.map Prod.snd
  exact ⟨hm.nodup_iff.mpr hwf.1, fun r hr => hwf.2 r (hm.mem_iff.mp hr)⟩

/-- Every single `getBrowser` or `freeBrowser` step preserves pool
well-formedness. -/
theorem poolStep_wf (p : BrowserPool) (op : PoolOp) (hwf : PoolWF p) :
    PoolWF (poolStep p op) := by
  obtain ⟨hnd, hlt⟩ := hwf
  cases op with
  | get bid =>
    show PoolWF (p.getBrowser bid).1
    unfold BrowserPool.getBrowser
    cases hE : takeIdle bid p.idle with
    | some pr =>
      obtain ⟨r0, idle2⟩ := pr
      have hidle : List.Perm p.idle ((bid, r0) :: idle2) :=
        takeIdle_perm bid p.idle r0 idle2 hE
      have h1 : List.Perm (idle2 ++ (bid, r0) :: p.inUse)
          ((bid, r0) :: (idle2 ++ p.inUse)) := List.perm_middle
      have h2 : List.Perm (p.idle ++ p.inUse)
          ((bid, r0) :: (idle2 ++ p.inUse)) := hidle.append_right p.inUse
      exact poolWF_perm_aux (h1.trans h2.symm) ⟨hnd, hlt⟩
    | none =>
      have hmid : List.Perm (p.idle ++ (bid, p.nextRef) :: p.inUse)
          ((bid, p.nextRef) :: (p.idle ++ p.inUse)) := List.perm_middle
      have hm := hmid.map Prod.snd
      constructor
      · refine hm.nodup_iff.mpr (List.nodup_cons.mpr ⟨fun hmem => ?_, hnd⟩)
        exact absurd (hlt p.nextRef hmem) (lt_irrefl p.nextRef)
      · intro r hr
        have := hm.mem_iff.mp hr
        rcases List.mem_cons.mp this with h | h
        · rw [h]; exact Nat.lt_succ_self _
        · exact Nat.lt_succ_of_lt (hlt r h)
  | free s =>
    show PoolWF (match p.freeBrowser s with | some p2 => p2 | none => p)
    unfold BrowserPool.freeBrowser
    cases hR : removeFirst s p.inUse with
    | none => exact ⟨hnd, hlt⟩
    | some inUse2 =>
      have hin : List.Perm p.inUse (s :: inUse2) :=
        removeFirst_perm s p.inUse inUse2 hR
      have h1 : List.Perm (p.idle ++ p.inUse) (p.idle ++ s :: inUse2) :=
        hin.append_left p.idle
      have h2 : List.Perm (p.idle ++ s :: inUse2)
          (s :: (p.idle ++ inUse2)) := List.perm_middle
      exact poolWF_perm_aux ((h1.trans h2).symm) ⟨hnd, hlt⟩

/-- Well-formedness is preserved along any run of pool operations. -/
theorem runPool_wf_aux (ops : List PoolOp) :
    ∀ p : BrowserPool, PoolWF p → PoolWF (ops.foldl poolStep p) := by
  induction ops with
  | nil => intro p h; exact h
  | cons op rest ih => intro p h; exact ih _ (poolStep_wf p op h)

/-- The pool reached by any interleaving from the empty pool is
well-formed. -/
theorem runPool_wf (ops : List PoolOp) : PoolWF (runPool ops) := by
  refine runPool_wf_aux ops emptyPool ⟨List.nodup_nil, ?_⟩
  intro r hr
  exact absurd hr (by simp [poolRefs, emptyPool])

/-- C1: after any interleaving of `getBrowser` and `freeBrowser` calls, no
session instance appears twice in the registry: every managed session is
in at most one of the idle and in-use partitions, and no session is
checked out (in-use) more than once — the single-owner invariant. -/
theorem claim_pool_single_owner (ops : List PoolOp) :
    (poolRefs (runPool ops)).Nodup
    ∧ (∀ r, ¬(r ∈ (runPool ops).idle.map Prod.snd
        ∧ r ∈ (runPool ops).inUse.map Prod.snd))
    ∧ (∀ r, ((runPool ops).inUse.map Prod.snd).count r ≤ 1) := by
  obtain ⟨hnd, _⟩ := runPool_wf ops
  have hsplit : poolRefs (runPool ops)
      = (runPool ops).idle.map Prod.snd ++ (runPool ops).inUse.map Prod.snd := by
    unfold poolRefs
    rw [List.map_append]
  rw [hsplit] at hnd
  obtain ⟨hidle, hinuse, hdisj⟩ := List.nodup_append.mp hnd
  refine ⟨by rw [hsplit]; exact hnd, ?_, ?_⟩
  · intro r hr
    exact hdisj hr.1 hr.2
  · intro r
    exact List.nodup_iff_count_le_one.mp hinuse r

end Hermione
